import Mathlib

/-!
Verification of the chess AI worker core: the static evaluation function
(material values plus piece-square tables), the move-ordering heuristic,
and the depth-limited minimax search with alpha-beta pruning, together
with the best-move selection loop.

The chess rules engine (chess.js) is external to this repository; the
search core only consumes it through `moves`, `move`, `undo` and
`isGameOver`.  It is therefore modelled abstractly by a `Rules` structure
over an opaque position type, and `undo` is modelled by threading an
explicit history stack (`GameSt`) exactly where the source mutates the
game object.  JavaScript's `Infinity` sentinels are modelled by the
extended integers `WithBot (WithTop ℤ)`: search scores are integers, and
`±Infinity` are `⊥`/`⊤`.
-/

namespace ChessAI

/-- Piece kinds, as in the chess.js `PieceSymbol` type. -/
inductive PieceSymbol : Type
  | p
  | n
  | b
  | r
  | q
  | k
  deriving DecidableEq

/-- Piece colors, chess.js `Color` (`'w'` / `'b'`). -/
inductive Color : Type
  | w
  | b
  deriving DecidableEq

/-- A piece as returned in the entries of `game.board()`. -/
structure Piece : Type where
  type : PieceSymbol
  color : Color
  deriving DecidableEq

/-- Material values, source `PIECE_VALUES`. -/
def PIECE_VALUES : PieceSymbol → ℤ
  | .p => 100
  | .n => 320
  | .b => 330
  | .r => 500
  | .q => 900
  | .k => 20000

/-- Source `PST_PAWN`. -/
def PST_PAWN : List ℤ :=
  [0,  0,  0,  0,  0,  0,  0,  0,
   50, 50, 50, 50, 50, 50, 50, 50,
   10, 10, 20, 30, 30, 20, 10, 10,
   5,  5, 10, 25, 25, 10,  5,  5,
   0,  0,  0, 20, 20,  0,  0,  0,
   5, -5, -10, 0,  0, -10, -5, 5,
   5, 10, 10, -20, -20, 10, 10, 5,
   0,  0,  0,  0,  0,  0,  0,  0]

/-- Source `PST_KNIGHT`. -/
def PST_KNIGHT : List ℤ :=
  [-50, -40, -30, -30, -30, -30, -40, -50,
   -40, -20, 0,   0,   0,   0,   -20, -40,
   -30, 0,   10,  15,  15,  10,  0,   -30,
   -30, 5,   15,  20,  20,  15,  5,   -30,
   -30, 0,   15,  20,  20,  15,  0,   -30,
   -30, 5,   10,  15,  15,  10,  5,   -30,
   -40, -20, 0,   5,   5,   0,   -20, -40,
   -50, -40, -30, -30, -30, -30, -40, -50]

/-- Source `PST_BISHOP`. -/
def PST_BISHOP : List ℤ :=
  [-20, -10, -10, -10, -10, -10, -10, -20,
   -10, 0,   0,   0,   0,   0,   0,   -10,
   -10, 0,   10,  10,  10,  10,  0,   -10,
   -10, 5,   5,   10,  10,  5,   5,   -10,
   -10, 0,   10,  10,  10,  10,  0,   -10,
   -10, 10,  10,  10,  10,  10,  10,  -10,
   -10, 5,   0,   0,   0,   0,   5,   -10,
   -20, -10, -10, -10, -10, -10, -10, -20]

/-- Source `PST_ROOK`. -/
def PST_ROOK : List ℤ :=
  [0,  0,  0,  0,  0,  0,  0,  0,
   5,  10, 10, 10, 10, 10, 10, 5,
   -5, 0,  0,  0,  0,  0,  0,  -5,
   -5, 0,  0,  0,  0,  0,  0,  -5,
   -5, 0,  0,  0,  0,  0,  0,  -5,
   -5, 0,  0,  0,  0,  0,  0,  -5,
   -5, 0,  0,  0,  0,  0,  0,  -5,
   0,  0,  0,  5,  5,  0,  0,  0]

/-- Source `PST_QUEEN`. -/
def PST_QUEEN : List ℤ :=
  [-20, -10, -10, -5, -5, -10, -10, -20,
   -10, 0,   0,   0,  0,  0,   0,   -10,
   -10, 0,   5,   5,  5,  5,   0,   -10,
   -5,  0,   5,   5,  5,  5,   0,   -5,
   0,   0,   5,   5,  5,  5,   0,   -5,
   -10, 5,   5,   5,  5,  5,   0,   -10,
   -10, 0,   5,   0,  0,  0,   0,   -10,
   -20, -10, -10, -5, -5, -10, -10, -20]

/-- Source `PST_KING_MID`. -/
def PST_KING_MID : List ℤ :=
  [-30, -40, -40, -50, -50, -40, -40, -30,
   -30, -40, -40, -50, -50, -40, -40, -30,
   -30, -40, -40, -50, -50, -40, -40, -30,
   -30, -40, -40, -50, -50, -40, -40, -30,
   -20, -30, -30, -40, -40, -30, -30, -20,
   -10, -20, -20, -20, -20, -20, -20, -10,
   20,  20,  0,   0,   0,   0,   20,  20,
   20,  30,  10,  0,   0,   10,  30,  20]

/-- Source `PST_MAP`. -/
def PST_MAP : PieceSymbol → List ℤ
  | .p => PST_PAWN
  | .n => PST_KNIGHT
  | .b => PST_BISHOP
  | .r => PST_ROOK
  | .q => PST_QUEEN
  | .k => PST_KING_MID

/-- `t[i]` on a 64-entry table (all indices used by the code are in range). -/
def pstAt (t : List ℤ) (i : ℕ) : ℤ := t.getD i 0

/-- The 8×8 board as returned by `game.board()`: `b row col`, with
`row = 0` the 8th rank (Black's back rank) and `col = 0` the a-file. -/
def Board : Type := ℕ → ℕ → Option Piece

/-- The contribution of one square to `evaluate`, transcribing the loop
body: `idx = row * 8 + col`, `mirrorIdx = (7 - row) * 8 + col`, and
`score += value + pst[mirrorIdx]` for White,
`score -= value + pst[idx]` for Black. -/
def squareScore (sq : Option Piece) (row col : ℕ) : ℤ :=
  match sq with
  | none => 0
  | some piece =>
    let idx := row * 8 + col
    let mirrorIdx := (7 - row) * 8 + col
    let value := PIECE_VALUES piece.type
    let pst := PST_MAP piece.type
    if piece.color = Color.w then value + pstAt pst mirrorIdx
    else -(value + pstAt pst idx)

/-- Source `evaluate`: the double loop over `game.board()` accumulating
`squareScore`, rendered as a double finite sum. -/
def evaluate (b : Board) : ℤ :=
  ∑ row ∈ Finset.range 8, ∑ col ∈ Finset.range 8, squareScore (b row col) row col

/-- Color reversal on pieces. -/
def mirrorPiece (piece : Piece) : Piece :=
  ⟨piece.type, match piece.color with | .w => .b | .b => .w⟩

/-- The color-reversed, vertically mirrored counterpart of a board. -/
def mirrorBoard (b : Board) : Board :=
  fun row col => (b (7 - row) col).map mirrorPiece

/-- White material-plus-positional sum exactly as claim C2 words it:
the table indexed directly by the board-order square index
`row * 8 + col`. -/
def whiteSumClaimed (b : Board) : ℤ :=
  ∑ row ∈ Finset.range 8, ∑ col ∈ Finset.range 8,
    match b row col with
    | some piece =>
      if piece.color = Color.w then
        PIECE_VALUES piece.type + pstAt (PST_MAP piece.type) (row * 8 + col)
      else 0
    | none => 0

/-- Black material-plus-positional sum exactly as claim C2 words it:
the square index mirrored vertically, `(7 - row) * 8 + col`. -/
def blackSumClaimed (b : Board) : ℤ :=
  ∑ row ∈ Finset.range 8, ∑ col ∈ Finset.range 8,
    match b row col with
    | some piece =>
      if piece.color = Color.b then
        PIECE_VALUES piece.type + pstAt (PST_MAP piece.type) ((7 - row) * 8 + col)
      else 0
    | none => 0

/-- The evaluation claim C2 describes: direct index for White, mirrored
index for Black. -/
def evaluateClaimed (b : Board) : ℤ := whiteSumClaimed b - blackSumClaimed b

/-- White sum as the code actually indexes: mirrored index
`(7 - row) * 8 + col` for White. -/
def whiteSum (b : Board) : ℤ :=
  ∑ row ∈ Finset.range 8, ∑ col ∈ Finset.range 8,
    match b row col with
    | some piece =>
      if piece.color = Color.w then
        PIECE_VALUES piece.type + pstAt (PST_MAP piece.type) ((7 - row) * 8 + col)
      else 0
    | none => 0

/-- Black sum as the code actually indexes: direct index `row * 8 + col`
for Black. -/
def blackSum (b : Board) : ℤ :=
  ∑ row ∈ Finset.range 8, ∑ col ∈ Finset.range 8,
    match b row col with
    | some piece =>
      if piece.color = Color.b then
        PIECE_VALUES piece.type + pstAt (PST_MAP piece.type) (row * 8 + col)
      else 0
    | none => 0

/-- A board holding a single white pawn on a7 (board row 1, column 0). -/
def pawnBoard : Board :=
  fun row col => if row = 1 ∧ col = 0 then some ⟨PieceSymbol.p, Color.w⟩ else none

/-! ## Moves and move ordering -/

/-- A verbose chess.js move as consumed by the AI: the engine only reads
`captured`, `promotion` and `san`; `fromSq`/`toSq` (source fields
`from`/`to`, renamed since `from` is a Lean keyword) identify the move. -/
structure Move : Type where
  fromSq : String
  toSq : String
  san : String
  captured : Option PieceSymbol := none
  promotion : Option PieceSymbol := none
  deriving DecidableEq

/-- The heuristic priority of one move inside the `orderMoves` comparator:
captures add captured value × 10, promotions add the promoted-to value,
and a san containing `'+'` (a checking move) adds 50. -/
def moveScore (m : Move) : ℤ :=
  (match m.captured with
   | some piece => PIECE_VALUES piece * 10
   | none => 0)
  + (match m.promotion with
     | some piece => PIECE_VALUES piece
     | none => 0)
  + (if m.san.data.contains '+' then 50 else 0)

/-- Source `orderMoves`: `moves.sort((a, b) => scoreB - scoreA)`, i.e. the
stable (ES2019) in-place sort in descending `moveScore` order.  The value
returned — which is also the state of the caller's array after the call,
since `Array.prototype.sort` sorts in place and returns its receiver — is
modelled as a stable descending sort. -/
def orderMoves (moves : List Move) : List Move :=
  moves.insertionSort (fun a b => moveScore b ≤ moveScore a)

/-- A quiet pawn push (no capture, no promotion, no check). -/
def quietMove : Move := ⟨"e7", "e6", "e6", none, none⟩

/-- A queen capture, ordered in front of quiet moves by `orderMoves`. -/
def captureMove : Move := ⟨"d8", "d1", "Qxd1", some PieceSymbol.q, none⟩

/-! ## The search engine over an abstract rules engine -/

/-- Search scores: integers extended with the `±Infinity` sentinels used by
the JavaScript source (`⊥` is `-Infinity`, `⊤` is `+Infinity`). -/
abbrev EInt : Type := WithBot (WithTop ℤ)

/-- Embedding of an integer score into `EInt`. -/
def iE (z : ℤ) : EInt := ((z : WithTop ℤ) : EInt)

/-- The rules-engine contract consumed by the search core (chess.js is
external to the repository): legal move generation, move application,
game-over detection, and the leaf evaluator (`evaluate` composed with the
position's board).  `move` is pure state passing; the source's
mutate-and-`undo` discipline is modelled separately by `GameSt`. -/
structure Rules (Pos : Type) : Type where
  moves : Pos → List Move
  move : Pos → Move → Pos
  isGameOver : Pos → Bool
  eval : Pos → ℤ

/-- The maximizing loop of `minimax`: running `maxEval` and `alpha`, with
the `beta <= alpha` cutoff checked after both updates, exactly as in the
source. -/
def maxLoop (step : Move → EInt → EInt → EInt) :
    List Move → EInt → EInt → EInt → EInt
  | [], maxEval, _, _ => maxEval
  | m :: rest, maxEval, alpha, beta =>
    if beta ≤ max alpha (step m alpha beta) then max maxEval (step m alpha beta)
    else maxLoop step rest (max maxEval (step m alpha beta)) (max alpha (step m alpha beta)) beta

/-- The minimizing loop of `minimax`: running `minEval` and `beta`. -/
def minLoop (step : Move → EInt → EInt → EInt) :
    List Move → EInt → EInt → EInt → EInt
  | [], minEval, _, _ => minEval
  | m :: rest, minEval, alpha, beta =>
    if min beta (step m alpha beta) ≤ alpha then min minEval (step m alpha beta)
    else minLoop step rest (min minEval (step m alpha beta)) alpha (min beta (step m alpha beta))

/-- Source `minimax` with alpha-beta pruning.  Depth `0` (or a game-over
position) returns the static evaluation; otherwise the ordered legal
moves are explored by `maxLoop`/`minLoop`, each child scored by a
recursive call at depth `depth - 1` with the `maximizing` flag flipped. -/
def minimax (R : Rules Pos) : ℕ → Pos → EInt → EInt → Bool → EInt
  | 0, pos, _, _, _ => iE (R.eval pos)
  | depth + 1, pos, alpha, beta, isMaximizing =>
    if R.isGameOver pos then iE (R.eval pos)
    else if isMaximizing then
      maxLoop (fun m a b => minimax R depth (R.move pos m) a b false)
        (orderMoves (R.moves pos)) ⊥ alpha beta
    else
      minLoop (fun m a b => minimax R depth (R.move pos m) a b true)
        (orderMoves (R.moves pos)) ⊤ alpha beta

/-- The unpruned reference search: a full minimax traversal of the same
game tree (same move ordering, same leaves, same evaluator), folding
`max`/`min` over every child with no alpha-beta window. -/
def fullMinimax (R : Rules Pos) : ℕ → Pos → Bool → EInt
  | 0, pos, _ => iE (R.eval pos)
  | depth + 1, pos, isMaximizing =>
    if R.isGameOver pos then iE (R.eval pos)
    else if isMaximizing then
      (((orderMoves (R.moves pos)).map fun m =>
        fullMinimax R depth (R.move pos m) false).foldl max ⊥)
    else
      (((orderMoves (R.moves pos)).map fun m =>
        fullMinimax R depth (R.move pos m) true).foldl min ⊤)

/-- The root loop of `findBestMove`: keep a move only on strict
improvement (`evalScore < bestEval`), so the first minimal-scoring move
in evaluation order wins ties. -/
def bestLoop (score : Move → EInt) : List Move → Option Move → EInt → Option Move
  | [], bestMove, _ => bestMove
  | m :: rest, bestMove, bestEval =>
    if score m < bestEval then bestLoop score rest (some m) (score m)
    else bestLoop score rest bestMove bestEval

/-- Source `findBestMove`: order the root moves, return `null` when there
are none (`moves.length === 0`), otherwise score each root move by
`minimax(afterMove, depth - 1, -Infinity, Infinity, true)` and keep the
lowest (the AI minimizes). -/
def findBestMove (R : Rules Pos) (pos : Pos) (depth : ℕ) : Option Move :=
  if (orderMoves (R.moves pos)).length = 0 then none
  else
    bestLoop (fun m => minimax R (depth - 1) (R.move pos m) ⊥ ⊤ true)
      (orderMoves (R.moves pos)) none ⊤

/-- The root score of the pruned search: the minimum over root moves of
the recursive `minimax` score (the final `bestEval` of the source's root
loop). -/
def rootScore (R : Rules Pos) (pos : Pos) (depth : ℕ) : EInt :=
  ((orderMoves (R.moves pos)).map
    (fun m => minimax R (depth - 1) (R.move pos m) ⊥ ⊤ true)).foldl min ⊤

/-- The root score of the unpruned reference search. -/
def fullRootScore (R : Rules Pos) (pos : Pos) (depth : ℕ) : EInt :=
  ((orderMoves (R.moves pos)).map
    (fun m => fullMinimax R (depth - 1) (R.move pos m) true)).foldl min ⊤

/-! ## The mutate-and-undo state model

The source mutates a single `Chess` object via `game.move(m)` /
`game.undo()`.  `GameSt` models that object: the current position plus
the history stack that `undo` pops. -/

/-- The mutable game object: current position and undo history. -/
structure GameSt (Pos : Type) : Type where
  cur : Pos
  hist : List Pos

/-- `game.move(m)`: apply the move and push the previous position. -/
def pushMove (R : Rules Pos) (st : GameSt Pos) (m : Move) : GameSt Pos :=
  ⟨R.move st.cur m, st.cur :: st.hist⟩

/-- `game.undo()`: pop the history (a no-op on an empty history, as in
chess.js where `undo()` returns `null`). -/
def undoSt (st : GameSt Pos) : GameSt Pos :=
  match st.hist with
  | [] => st
  | p :: h => ⟨p, h⟩

/-- The maximizing loop of `minimax`, state-threading version: each
iteration runs `game.move(m)`, the recursive call, `game.undo()`, and
then checks the cutoff — so a `break` still happens after the undo. -/
def maxLoopSt (step : GameSt Pos → EInt → EInt → EInt × GameSt Pos) (R : Rules Pos) :
    List Move → GameSt Pos → EInt → EInt → EInt → EInt × GameSt Pos
  | [], st, maxEval, _, _ => (maxEval, st)
  | m :: rest, st, maxEval, alpha, beta =>
    if beta ≤ max alpha (step (pushMove R st m) alpha beta).1 then
      (max maxEval (step (pushMove R st m) alpha beta).1,
        undoSt (step (pushMove R st m) alpha beta).2)
    else
      maxLoopSt step R rest (undoSt (step (pushMove R st m) alpha beta).2)
        (max maxEval (step (pushMove R st m) alpha beta).1)
        (max alpha (step (pushMove R st m) alpha beta).1) beta

/-- The minimizing loop of `minimax`, state-threading version. -/
def minLoopSt (step : GameSt Pos → EInt → EInt → EInt × GameSt Pos) (R : Rules Pos) :
    List Move → GameSt Pos → EInt → EInt → EInt → EInt × GameSt Pos
  | [], st, minEval, _, _ => (minEval, st)
  | m :: rest, st, minEval, alpha, beta =>
    if min beta (step (pushMove R st m) alpha beta).1 ≤ alpha then
      (min minEval (step (pushMove R st m) alpha beta).1,
        undoSt (step (pushMove R st m) alpha beta).2)
    else
      minLoopSt step R rest (undoSt (step (pushMove R st m) alpha beta).2)
        (min minEval (step (pushMove R st m) alpha beta).1) alpha
        (min beta (step (pushMove R st m) alpha beta).1)

/-- Source `minimax`, state-threading version over the mutable game
object; returns the score together with the final state of the game
object. -/
def minimaxSt (R : Rules Pos) : ℕ → GameSt Pos → EInt → EInt → Bool → EInt × GameSt Pos
  | 0, st, _, _, _ => (iE (R.eval st.cur), st)
  | depth + 1, st, alpha, beta, isMaximizing =>
    if R.isGameOver st.cur then (iE (R.eval st.cur), st)
    else if isMaximizing then
      maxLoopSt (fun st1 a b => minimaxSt R depth st1 a b false) R
        (orderMoves (R.moves st.cur)) st ⊥ alpha beta
    else
      minLoopSt (fun st1 a b => minimaxSt R depth st1 a b true) R
        (orderMoves (R.moves st.cur)) st ⊤ alpha beta

/-- The root loop of `findBestMove`, state-threading version. -/
def bestLoopSt (R : Rules Pos) (depth : ℕ) :
    List Move → GameSt Pos → Option Move → EInt → Option Move × GameSt Pos
  | [], st, bestMove, _ => (bestMove, st)
  | m :: rest, st, bestMove, bestEval =>
    if (minimaxSt R depth (pushMove R st m) ⊥ ⊤ true).1 < bestEval then
      bestLoopSt R depth rest (undoSt (minimaxSt R depth (pushMove R st m) ⊥ ⊤ true).2)
        (some m) (minimaxSt R depth (pushMove R st m) ⊥ ⊤ true).1
    else
      bestLoopSt R depth rest (undoSt (minimaxSt R depth (pushMove R st m) ⊥ ⊤ true).2)
        bestMove bestEval

/-- Source `findBestMove`, state-threading version. -/
def findBestMoveSt (R : Rules Pos) (st : GameSt Pos) (depth : ℕ) :
    Option Move × GameSt Pos :=
  if (orderMoves (R.moves st.cur)).length = 0 then (none, st)
  else bestLoopSt R (depth - 1) (orderMoves (R.moves st.cur)) st none ⊤

/-! ## Specification-side notions -/

/-- Fail-soft alpha-beta window soundness: within the window `(alpha,
beta)` the estimate `r` is exact for the true value `v`; a fail-low
estimate upper-bounds `v` and a fail-high estimate lower-bounds it. -/
def Approx (alpha beta v r : EInt) : Prop :=
  (r ≤ alpha → v ≤ r) ∧ (beta ≤ r → r ≤ v) ∧ (alpha < r → r < beta → r = v)

/-- `Reach R n p q`: position `q` is reachable from `p` by at most `n`
legal moves without passing through a game-over position — exactly the
positions the depth-`n` search recursion can visit below `p`. -/
inductive Reach (R : Rules Pos) : ℕ → Pos → Pos → Prop
  | refl (n : ℕ) (p : Pos) : Reach R n p p
  | step {n : ℕ} {p q : Pos} (m : Move) (hgo : R.isGameOver p = false)
      (hm : m ∈ R.moves p) (h : Reach R n (R.move p m) q) : Reach R (n + 1) p q

/-- Two rules engines agree at a position: same legal moves, same
game-over verdict, same evaluation, and the same successor for each
legal move. -/
def Agree (R1 R2 : Rules Pos) (q : Pos) : Prop :=
  R1.moves q = R2.moves q ∧ R1.isGameOver q = R2.isGameOver q ∧ R1.eval q = R2.eval q
    ∧ ∀ m ∈ R1.moves q, R1.move q m = R2.move q m

/-! ## Small concrete rules engines used to instantiate the theorems -/

/-- A featureless move labelled `a`. -/
def mvA : Move := ⟨"a", "a", "a", none, none⟩

/-- A featureless move labelled `b`. -/
def mvB : Move := ⟨"b", "b", "b", none, none⟩

/-- A binary tree of depth 2 over positions `ℕ`: `p` branches to
`2p + 1` and `2p + 2`, leaves evaluated by their index. -/
def treeR : Rules ℕ where
  moves p := if p < 3 then [mvA, mvB] else []
  move p m := 2 * p + (if m = mvA then 1 else 2)
  isGameOver _ := false
  eval p := (p : ℤ)

/-- A small engine whose second root move ends the game early: position
`p` steps to `p + 1` (via `mvA`) or `p + 2` (via `mvB`), positions `≥ 2`
are game over, evaluation is the position index. -/
def selR : Rules ℕ where
  moves p := if p < 2 then [mvA, mvB] else []
  move p m := p + (if m = mvA then 1 else 2)
  isGameOver p := decide (2 ≤ p)
  eval p := (p : ℤ)

/-- An engine with no legal moves anywhere. -/
def emptyR : Rules ℕ where
  moves _ := []
  move p _ := p
  isGameOver _ := true
  eval _ := 0

/-- A single infinite line: every position steps to its successor. -/
def lineR : Rules ℕ where
  moves _ := [mvA]
  move p _ := p + 1
  isGameOver _ := false
  eval p := (p : ℤ)

/-- The same line, with the evaluation changed only at positions beyond
depth-2 reach of the root. -/
def lineR2 : Rules ℕ where
  moves _ := [mvA]
  move p _ := p + 1
  isGameOver _ := false
  eval p := if 2 < p then 999 else (p : ℤ)

/-! ### A concrete mate-in-1 chess position

Position (Black to move): White Kg1, Pf2, Pg2, Ph2, Qa8; Black Qe8, Kh6.
Black has 26 legal moves, among them the checkmate-in-1 `Qe1#` (queen to
e1: rank-1 check; f1/h1 are covered by the queen, f2/g2/h2 are White's
own pawns, nothing can capture or block) and the queen capture `Qxa8`.
`mateMoves` transcribes the position's full legal move list with
chess.js-style sans; a move is played by board surgery (source square
cleared, target square overwritten), which matches chess.js for these
moves (no castling, en passant or promotion among them). -/

/-- File letter to column: `'a'` ↦ 0. -/
def fileOf (c : Char) : ℕ := c.toNat - 97

/-- Rank digit to board row: `'8'` ↦ 0. -/
def rowOf (c : Char) : ℕ := 56 - c.toNat

/-- Parse an algebraic square (`"e8"`) into `(row, col)` board
coordinates. -/
def parseSq (s : String) : ℕ × ℕ :=
  match s.data with
  | [f, r] => (rowOf r, fileOf f)
  | _ => (0, 0)

/-- Play `m` on `b`: clear the source square, put the moved piece on the
target square (a capture simply overwrites). -/
def applyBoardMove (b : Board) (m : Move) : Board :=
  fun row col =>
    if (row, col) = parseSq m.toSq then b (parseSq m.fromSq).1 (parseSq m.fromSq).2
    else if (row, col) = parseSq m.fromSq then none
    else b row col

/-- The root board: White Kg1, Pf2, Pg2, Ph2, Qa8; Black Qe8, Kh6. -/
def mateBoard : Board := fun row col =>
  if row = 0 ∧ col = 0 then some ⟨PieceSymbol.q, Color.w⟩
  else if row = 0 ∧ col = 4 then some ⟨PieceSymbol.q, Color.b⟩
  else if row = 2 ∧ col = 7 then some ⟨PieceSymbol.k, Color.b⟩
  else if row = 6 ∧ col = 5 then some ⟨PieceSymbol.p, Color.w⟩
  else if row = 6 ∧ col = 6 then some ⟨PieceSymbol.p, Color.w⟩
  else if row = 6 ∧ col = 7 then some ⟨PieceSymbol.p, Color.w⟩
  else if row = 7 ∧ col = 6 then some ⟨PieceSymbol.k, Color.w⟩
  else none

/-- A black queen move from e8. -/
def qMove (sq san : String) (captured : Option PieceSymbol) : Move :=
  ⟨"e8", sq, san, captured, none⟩

/-- A black king move from h6. -/
def kMove (sq san : String) : Move := ⟨"h6", sq, san, none, none⟩

/-- The checkmating move Qe1# (chess.js writes mate with `'#'`, which the
move-ordering bonus for `'+'` does not match). -/
def mateInOne : Move := qMove "e1" "Qe1#" none

/-- The queen capture Qxa8. -/
def qxa8 : Move := qMove "a8" "Qxa8" (some PieceSymbol.q)

/-- All 26 legal moves for Black in `mateBoard` (21 queen moves along the
8th rank, the e-file and both diagonals, plus 5 king moves). -/
def mateMoves : List Move :=
  [qMove "d8" "Qd8" none, qMove "c8" "Qc8" none, qMove "b8" "Qb8" none, qxa8,
   qMove "f8" "Qf8" none, qMove "g8" "Qg8" none, qMove "h8" "Qh8" none,
   qMove "e7" "Qe7" none, qMove "e6" "Qe6" none, qMove "e5" "Qe5" none,
   qMove "e4" "Qe4" none, qMove "e3" "Qe3" none, qMove "e2" "Qe2" none, mateInOne,
   qMove "d7" "Qd7" none, qMove "c6" "Qc6" none, qMove "b5" "Qb5" none,
   qMove "a4" "Qa4" none,
   qMove "f7" "Qf7" none, qMove "g6" "Qg6" none, qMove "h5" "Qh5" none,
   kMove "g5" "Kg5", kMove "g6" "Kg6", kMove "g7" "Kg7", kMove "h5" "Kh5",
   kMove "h7" "Kh7"]

/-- The board reached from `mateBoard` by a move (root is `none`). -/
def c5Board : Option Move → Board
  | none => mateBoard
  | some m => applyBoardMove mateBoard m

/-- The rules engine for the mate-in-1 fragment: positions are the root
plus one position per root move; only `Qe1#` ends the game (after `Qxa8`
White still has pawn and king moves, and no other Black move even gives
check). Evaluation is the real `evaluate` on the real boards. -/
def c5R : Rules (Option Move) where
  moves p := match p with | none => mateMoves | some _ => []
  move _ m := some m
  isGameOver p :=
    match p with
    | none => false
    | some m => decide (m = mateInOne)
  eval p := evaluate (c5Board p)

/-! ## Theorems -/

lemma bot_lt_iE (z : ℤ) : (⊥ : EInt) < iE z := WithBot.bot_lt_coe _

lemma iE_lt_top (z : ℤ) : iE z < ⊤ := WithBot.coe_lt_coe.mpr (WithTop.coe_lt_top z)

lemma squareScore_mirror (sq : Option Piece) (row col : ℕ) (h : row < 8) :
    squareScore (sq.map mirrorPiece) (7 - row) col = -squareScore sq row col := by
  have h7 : 7 - (7 - row) = row := by omega
  cases sq with
  | none => simp [squareScore]
  | some piece =>
    rcases piece with ⟨t, c⟩
    cases c <;> simp [squareScore, mirrorPiece, h7]

/-- C8: evaluating the color-reversed, vertically mirrored counterpart of a
position yields the negated score: `evaluate (mirror P) = -evaluate P`. -/
theorem C8_evaluate_mirror_neg (b : Board) : evaluate (mirrorBoard b) = -evaluate b := by
  have inner : ∀ row ∈ Finset.range 8,
      (∑ col ∈ Finset.range 8, squareScore (mirrorBoard b (7 - row) col) (7 - row) col)
        = -(∑ col ∈ Finset.range 8, squareScore (b row col) row col) := by
    intro row hrow
    have hrow8 : row < 8 := Finset.mem_range.mp hrow
    rw [← Finset.sum_neg_distrib]
    refine Finset.sum_congr rfl (fun col _ => ?_)
    have hb : mirrorBoard b (7 - row) col = (b row col).map mirrorPiece := by
      unfold mirrorBoard
      congr 2
      omega
    rw [hb, squareScore_mirror _ _ _ hrow8]
  calc evaluate (mirrorBoard b)
      = ∑ row ∈ Finset.range 8, ∑ col ∈ Finset.range 8,
          squareScore (mirrorBoard b (7 - row) col) (7 - row) col :=
        (Finset.sum_range_reflect
          (fun row => ∑ col ∈ Finset.range 8, squareScore (mirrorBoard b row col) row col)
          8).symm
    _ = ∑ row ∈ Finset.range 8, -(∑ col ∈ Finset.range 8, squareScore (b row col) row col) :=
        Finset.sum_congr rfl inner
    _ = -evaluate b := by
        rw [Finset.sum_neg_distrib]
        rfl

/-- C2 counterexample: on a single white pawn at board row 1, column 0,
the code computes `100 + PST_PAWN[48] = 105` (mirrored index for White),
while the claimed formula (direct index for White) gives
`100 + PST_PAWN[8] = 150`. -/
theorem C2_counterexample :
    evaluate pawnBoard = 105 ∧ evaluateClaimed pawnBoard = 150 ∧
      evaluateClaimed pawnBoard ≠ evaluate pawnBoard := by
  refine ⟨by decide, by decide, by decide⟩

/-- C2 amended: `evaluate` is the sum over White's pieces of material value
plus the piece-square-table bonus at the vertically mirrored square index
`(7 - row) * 8 + col`, minus the sum over Black's pieces of material value
plus the bonus at the direct board index `row * 8 + col` — i.e. with the
board-order square indexing of `game.board()`, the table is mirrored for
White and direct for Black (the reverse of the claim's wording). -/
theorem C2_amended_evaluate_eq (b : Board) : evaluate b = whiteSum b - blackSum b := by
  unfold evaluate whiteSum blackSum
  rw [← Finset.sum_sub_distrib]
  refine Finset.sum_congr rfl (fun row _ => ?_)
  rw [← Finset.sum_sub_distrib]
  refine Finset.sum_congr rfl (fun col _ => ?_)
  cases hsq : b row col with
  | none => simp [squareScore]
  | some piece =>
    rcases piece with ⟨t, c⟩
    cases c <;> simp [squareScore]

/-- C4 counterexample: `Array.prototype.sort` reorders its receiver in
place (and returns it), so after `orderMoves([quiet, capture])` the input
array holds `[capture, quiet]` — not "the same elements in the same order
as before the call". -/
theorem C4_counterexample :
    orderMoves [quietMove, captureMove] = [captureMove, quietMove] ∧
      orderMoves [quietMove, captureMove] ≠ [quietMove, captureMove] := by
  refine ⟨by decide, by decide⟩

/-- C4 amended: `orderMoves` mutates no move object and neither adds nor
drops moves — its output (equally, the post-call state of the input
array) is a permutation of the input — but it does reorder the underlying
array in place, so the input list is not left in its original order. -/
theorem C4_amended_orderMoves_perm (moves : List Move) :
    (orderMoves moves).Perm moves :=
  List.perm_insertionSort _ moves

/-! ### Alpha-beta window soundness and the equivalence with full minimax -/

lemma foldl_max_init_le (l : List EInt) : ∀ x : EInt, x ≤ l.foldl max x := by
  induction l with
  | nil => intro x; exact le_refl x
  | cons a l ih => intro x; exact le_trans (le_max_left x a) (ih (max x a))

lemma foldl_min_le_init (l : List EInt) : ∀ x : EInt, l.foldl min x ≤ x := by
  induction l with
  | nil => intro x; exact le_refl x
  | cons a l ih => intro x; exact le_trans (ih (min x a)) (min_le_left x a)

lemma foldl_max_decomp (l : List EInt) :
    ∀ x : EInt, l.foldl max x = max x (l.foldl max ⊥) := by
  induction l with
  | nil => intro x; exact (max_eq_left bot_le).symm
  | cons a l ih =>
    intro x
    simp only [List.foldl_cons]
    rw [ih (max x a), ih (max ⊥ a), max_eq_right (bot_le : (⊥ : EInt) ≤ a), max_assoc]

lemma foldl_min_decomp (l : List EInt) :
    ∀ x : EInt, l.foldl min x = min x (l.foldl min ⊤) := by
  induction l with
  | nil => intro x; exact (min_eq_left le_top).symm
  | cons a l ih =>
    intro x
    simp only [List.foldl_cons]
    rw [ih (min x a), ih (min ⊤ a), min_eq_right (le_top : a ≤ (⊤ : EInt)), min_assoc]

lemma maxLoop_approx (f : Move → EInt) (step : Move → EInt → EInt → EInt)
    (hstep : ∀ m alpha beta, alpha < beta → Approx alpha beta (f m) (step m alpha beta)) :
    ∀ (l : List Move) (me alpha0 alpha beta : EInt),
      alpha = max alpha0 me → alpha < beta →
      Approx alpha0 beta ((l.map f).foldl max me) (maxLoop step l me alpha beta) := by
  intro l
  induction l with
  | nil =>
    intro me alpha0 alpha beta hinv hab
    exact ⟨fun _ => le_refl _, fun _ => le_refl _, fun _ _ => rfl⟩
  | cons m rest ih =>
    intro me alpha0 alpha beta hinv hab
    obtain ⟨ha1, ha2, ha3⟩ := hstep m alpha beta hab
    have halpha0 : alpha0 ≤ alpha := by rw [hinv]; exact le_max_left _ _
    simp only [List.map_cons, List.foldl_cons, maxLoop]
    by_cases hcut : beta ≤ max alpha (step m alpha beta)
    · rw [if_pos hcut]
      have hbs : beta ≤ step m alpha beta := by
        rcases le_total (step m alpha beta) alpha with h | h
        · rw [max_eq_left h] at hcut
          exact absurd hab (not_lt.mpr hcut)
        · rwa [max_eq_right h] at hcut
      have hsf : step m alpha beta ≤ f m := ha2 hbs
      refine ⟨?_, ?_, ?_⟩
      · intro hle
        have hba : beta ≤ alpha :=
          le_trans (le_trans hbs (le_max_right me _)) (le_trans hle halpha0)
        exact absurd hab (not_lt.mpr hba)
      · intro _
        refine max_le ?_ ?_
        · exact le_trans (le_max_left me (f m)) (foldl_max_init_le _ _)
        · exact le_trans hsf (le_trans (le_max_right me (f m)) (foldl_max_init_le _ _))
      · intro _ hlt
        exact absurd (lt_of_le_of_lt (le_trans hbs (le_max_right me _)) hlt)
          (lt_irrefl beta)
    · rw [if_neg hcut]
      have hcont : max alpha (step m alpha beta) < beta := not_le.mp hcut
      have hinv1 : max alpha (step m alpha beta)
          = max alpha0 (max me (step m alpha beta)) := by
        rw [hinv, max_assoc]
      have IH := ih (max me (step m alpha beta)) alpha0 _ beta hinv1 hcont
      rcases lt_or_le alpha (step m alpha beta) with hlt | hle
      · have hsb : step m alpha beta < beta :=
          lt_of_le_of_lt (le_max_right alpha _) hcont
        have heq : step m alpha beta = f m := ha3 hlt hsb
        rw [← heq]
        exact IH
      · have hfs : f m ≤ step m alpha beta := ha1 hle
        obtain ⟨h1, h2, h3⟩ := IH
        rw [foldl_max_decomp _ (max me (step m alpha beta))] at h1 h2 h3
        rw [foldl_max_decomp _ (max me (f m))]
        set M := (rest.map f).foldl max ⊥ with hMdef
        set F := max (max me (f m)) M with hFdef
        set r := maxLoop step rest (max me (step m alpha beta))
          (max alpha (step m alpha beta)) beta with hrdef
        have hFF' : F ≤ max (max me (step m alpha beta)) M :=
          max_le_max (max_le_max (le_refl me) hfs) (le_refl M)
        have hmeF : me ≤ F := le_trans (le_max_left me (f m)) (le_max_left _ M)
        have hMF : M ≤ F := le_max_right _ M
        have hsa : step m alpha beta ≤ max F alpha0 := by
          have h5 : step m alpha beta ≤ max alpha0 me := by rw [← hinv]; exact hle
          calc step m alpha beta ≤ max alpha0 me := h5
            _ ≤ max alpha0 F := max_le_max (le_refl alpha0) hmeF
            _ = max F alpha0 := max_comm _ _
        have hFle : max (max me (step m alpha beta)) M ≤ max F alpha0 := by
          refine max_le (max_le ?_ hsa) ?_
          · exact le_trans hmeF (le_max_left F alpha0)
          · exact le_trans hMF (le_max_left F alpha0)
        refine ⟨?_, ?_, ?_⟩
        · intro hra
          exact le_trans hFF' (h1 hra)
        · intro hbr
          have hr2 : r ≤ max F alpha0 := le_trans (h2 hbr) hFle
          rcases le_max_iff.mp hr2 with hcase | hcase
          · exact hcase
          · exact absurd hab (not_lt.mpr (le_trans (le_trans hbr hcase) halpha0))
        · intro har hrb
          have heq' : r = max (max me (step m alpha beta)) M := h3 har hrb
          have hrle : r ≤ max F alpha0 := by rw [heq']; exact hFle
          rcases le_max_iff.mp hrle with hcase | hcase
          · exact le_antisymm hcase (by rw [heq']; exact hFF')
          · exact absurd har (not_lt.mpr hcase)

lemma minLoop_approx (f : Move → EInt) (step : Move → EInt → EInt → EInt)
    (hstep : ∀ m alpha beta, alpha < beta → Approx alpha beta (f m) (step m alpha beta)) :
    ∀ (l : List Move) (me beta0 alpha beta : EInt),
      beta = min beta0 me → alpha < beta →
      Approx alpha beta0 ((l.map f).foldl min me) (minLoop step l me alpha beta) := by
  intro l
  induction l with
  | nil =>
    intro me beta0 alpha beta hinv hab
    exact ⟨fun _ => le_refl _, fun _ => le_refl _, fun _ _ => rfl⟩
  | cons m rest ih =>
    intro me beta0 alpha beta hinv hab
    obtain ⟨ha1, ha2, ha3⟩ := hstep m alpha beta hab
    have hbeta0 : beta ≤ beta0 := by rw [hinv]; exact min_le_left _ _
    simp only [List.map_cons, List.foldl_cons, minLoop]
    by_cases hcut : min beta (step m alpha beta) ≤ alpha
    · rw [if_pos hcut]
      have hsa : step m alpha beta ≤ alpha := by
        rcases le_total beta (step m alpha beta) with h | h
        · rw [min_eq_left h] at hcut
          exact absurd hab (not_lt.mpr hcut)
        · rwa [min_eq_right h] at hcut
      have hfs : f m ≤ step m alpha beta := ha1 hsa
      refine ⟨?_, ?_, ?_⟩
      · intro _
        refine le_min ?_ ?_
        · exact le_trans (foldl_min_le_init _ _) (min_le_left me (f m))
        · exact le_trans (le_trans (foldl_min_le_init _ _) (min_le_right me (f m))) hfs
      · intro hge
        have hba : beta ≤ alpha :=
          le_trans hbeta0 (le_trans hge (le_trans (min_le_right me _) hsa))
        exact absurd hab (not_lt.mpr hba)
      · intro hlt _
        exact absurd (lt_of_lt_of_le hlt (le_trans (min_le_right me _) hsa))
          (lt_irrefl alpha)
    · rw [if_neg hcut]
      have hcont : alpha < min beta (step m alpha beta) := not_le.mp hcut
      have hinv1 : min beta (step m alpha beta)
          = min beta0 (min me (step m alpha beta)) := by
        rw [hinv, min_assoc]
      have IH := ih (min me (step m alpha beta)) beta0 alpha _ hinv1 hcont
      rcases lt_or_le (step m alpha beta) beta with hlt | hle
      · have has : alpha < step m alpha beta :=
          lt_of_lt_of_le hcont (min_le_right beta _)
        have heq : step m alpha beta = f m := ha3 has hlt
        rw [← heq]
        exact IH
      · have hfs : step m alpha beta ≤ f m := ha2 hle
        obtain ⟨h1, h2, h3⟩ := IH
        rw [foldl_min_decomp _ (min me (step m alpha beta))] at h1 h2 h3
        rw [foldl_min_decomp _ (min me (f m))]
        set M := (rest.map f).foldl min ⊤ with hMdef
        set F := min (min me (f m)) M with hFdef
        set r := minLoop step rest (min me (step m alpha beta)) alpha
          (min beta (step m alpha beta)) with hrdef
        have hF'F : min (min me (step m alpha beta)) M ≤ F :=
          min_le_min (min_le_min (le_refl me) hfs) (le_refl M)
        have hFme : F ≤ me := le_trans (min_le_left _ M) (min_le_left me (f m))
        have hFM : F ≤ M := min_le_right _ M
        have hsb : min F beta0 ≤ step m alpha beta := by
          have h5 : min beta0 me ≤ step m alpha beta := by rw [← hinv]; exact hle
          calc min F beta0 = min beta0 F := min_comm _ _
            _ ≤ min beta0 me := min_le_min (le_refl beta0) hFme
            _ ≤ step m alpha beta := h5
        have hFge : min F beta0 ≤ min (min me (step m alpha beta)) M := by
          refine le_min (le_min ?_ hsb) ?_
          · exact le_trans (min_le_left F beta0) hFme
          · exact le_trans (min_le_left F beta0) hFM
        refine ⟨?_, ?_, ?_⟩
        · intro hra
          have hr2 : min F beta0 ≤ r := le_trans hFge (h1 hra)
          rcases min_le_iff.mp hr2 with hcase | hcase
          · exact hcase
          · exact absurd hab (not_lt.mpr (le_trans hbeta0 (le_trans hcase hra)))
        · intro hbr
          exact le_trans (h2 hbr) hF'F
        · intro har hrb
          have heq' : r = min (min me (step m alpha beta)) M := h3 har hrb
          have hrge : min F beta0 ≤ r := by rw [heq']; exact hFge
          rcases min_le_iff.mp hrge with hcase | hcase
          · exact le_antisymm (by rw [heq']; exact hF'F) hcase
          · exact absurd hrb (not_lt.mpr hcase)

lemma minimax_approx (R : Rules Pos) :
    ∀ (depth : ℕ) (pos : Pos) (alpha beta : EInt) (isMaximizing : Bool),
      alpha < beta →
      Approx alpha beta (fullMinimax R depth pos isMaximizing)
        (minimax R depth pos alpha beta isMaximizing) := by
  intro depth
  induction depth with
  | zero =>
    intro pos alpha beta mx _
    exact ⟨fun _ => le_refl _, fun _ => le_refl _, fun _ _ => rfl⟩
  | succ d ih =>
    intro pos alpha beta mx hab
    by_cases hgo : R.isGameOver pos
    · simp only [minimax, fullMinimax, hgo, if_true]
      exact ⟨fun _ => le_refl _, fun _ => le_refl _, fun _ _ => rfl⟩
    · simp only [Bool.not_eq_true] at hgo
      cases mx with
      | true =>
        simp only [minimax, fullMinimax, hgo, Bool.false_eq_true, if_false, if_true]
        exact maxLoop_approx _ _ (fun m a b h => ih (R.move pos m) a b false h)
          (orderMoves (R.moves pos)) ⊥ alpha alpha beta (max_eq_left bot_le).symm hab
      | false =>
        simp only [minimax, fullMinimax, hgo, Bool.false_eq_true, if_false]
        exact minLoop_approx _ _ (fun m a b h => ih (R.move pos m) a b true h)
          (orderMoves (R.moves pos)) ⊤ beta alpha beta (min_eq_left le_top).symm hab

lemma minimax_eq_fullMinimax (R : Rules Pos) (depth : ℕ) (pos : Pos) (mx : Bool) :
    minimax R depth pos ⊥ ⊤ mx = fullMinimax R depth pos mx := by
  obtain ⟨h1, h2, h3⟩ := minimax_approx R depth pos ⊥ ⊤ mx bot_lt_top
  rcases eq_or_lt_of_le (bot_le : (⊥ : EInt) ≤ minimax R depth pos ⊥ ⊤ mx) with hb | hb
  · have hrb : minimax R depth pos ⊥ ⊤ mx ≤ ⊥ := le_of_eq hb.symm
    exact le_antisymm (le_trans hrb bot_le) (h1 hrb)
  · rcases eq_or_lt_of_le (le_top : minimax R depth pos ⊥ ⊤ mx ≤ ⊤) with ht | ht
    · have hrt : (⊤ : EInt) ≤ minimax R depth pos ⊥ ⊤ mx := le_of_eq ht.symm
      exact le_antisymm (h2 hrt) (le_trans le_top hrt)
    · exact h3 hb ht

/-- C1: for every rules engine, position and depth ≥ 1, the pruned search
agrees with the unpruned full minimax traversal of the same tree — both
for each root move's recursive score and for the root minimum (the
search score); pruning never changes the resulting value. -/
theorem C1_alphabeta_score_equivalence (R : Rules Pos) (pos : Pos) (depth : ℕ)
    (hdepth : 1 ≤ depth) :
    (∀ m ∈ orderMoves (R.moves pos),
        minimax R (depth - 1) (R.move pos m) ⊥ ⊤ true
          = fullMinimax R (depth - 1) (R.move pos m) true)
      ∧ rootScore R pos depth = fullRootScore R pos depth := by
  refine ⟨fun m _ => minimax_eq_fullMinimax R _ _ _, ?_⟩
  unfold rootScore fullRootScore
  have hfun : (fun m => minimax R (depth - 1) (R.move pos m) ⊥ ⊤ true)
      = fun m => fullMinimax R (depth - 1) (R.move pos m) true :=
    funext fun m => minimax_eq_fullMinimax R _ _ _
  rw [hfun]

/-- C1 witness: on the concrete binary 2-ply tree `treeR` the pruned and
unpruned root scores coincide, and both equal the hand-computed 2-ply
minimax value `min (max 3 4) (max 5 6) = 4`. -/
theorem C1_alphabeta_score_equivalence_witness :
    (1 ≤ 2) ∧ rootScore treeR 0 2 = fullRootScore treeR 0 2
      ∧ rootScore treeR 0 2 = iE 4 :=
  ⟨by decide, (C1_alphabeta_score_equivalence treeR 0 2 (by decide)).2, by decide⟩

/-! ### Apply/undo discipline: state restoration -/

lemma undoSt_pushMove (R : Rules Pos) (st : GameSt Pos) (m : Move) :
    undoSt (pushMove R st m) = st := rfl

lemma maxLoopSt_snd (step : GameSt Pos → EInt → EInt → EInt × GameSt Pos) (R : Rules Pos)
    (hstep : ∀ st alpha beta, (step st alpha beta).2 = st) :
    ∀ (l : List Move) (st : GameSt Pos) (me alpha beta : EInt),
      (maxLoopSt step R l st me alpha beta).2 = st := by
  intro l
  induction l with
  | nil => intro st me alpha beta; rfl
  | cons m rest ih =>
    intro st me alpha beta
    simp only [maxLoopSt, hstep, undoSt_pushMove]
    split
    · rfl
    · exact ih st _ _ _

lemma minLoopSt_snd (step : GameSt Pos → EInt → EInt → EInt × GameSt Pos) (R : Rules Pos)
    (hstep : ∀ st alpha beta, (step st alpha beta).2 = st) :
    ∀ (l : List Move) (st : GameSt Pos) (me alpha beta : EInt),
      (minLoopSt step R l st me alpha beta).2 = st := by
  intro l
  induction l with
  | nil => intro st me alpha beta; rfl
  | cons m rest ih =>
    intro st me alpha beta
    simp only [minLoopSt, hstep, undoSt_pushMove]
    split
    · rfl
    · exact ih st _ _ _

lemma minimaxSt_snd (R : Rules Pos) :
    ∀ (depth : ℕ) (st : GameSt Pos) (alpha beta : EInt) (mx : Bool),
      (minimaxSt R depth st alpha beta mx).2 = st := by
  intro depth
  induction depth with
  | zero => intro st alpha beta mx; rfl
  | succ d ih =>
    intro st alpha beta mx
    simp only [minimaxSt]
    split
    · rfl
    · split
      · exact maxLoopSt_snd _ R (fun st1 a b => ih st1 a b false) _ st _ _ _
      · exact minLoopSt_snd _ R (fun st1 a b => ih st1 a b true) _ st _ _ _

lemma bestLoopSt_snd (R : Rules Pos) (depth : ℕ) :
    ∀ (l : List Move) (st : GameSt Pos) (bm : Option Move) (be : EInt),
      (bestLoopSt R depth l st bm be).2 = st := by
  intro l
  induction l with
  | nil => intro st bm be; rfl
  | cons m rest ih =>
    intro st bm be
    simp only [bestLoopSt, minimaxSt_snd, undoSt_pushMove]
    split
    · exact ih st _ _
    · exact ih st _ _

/-- C7: every call to `minimax` and to `findBestMove` restores the game
object to its entry state: each `game.move` is matched by exactly one
`game.undo` (LIFO, popping exactly the position pushed by the matching
move, including when an alpha-beta cutoff exits the loop early — the
source undoes before checking the cutoff), so the game state after the
call equals the state before the call. -/
theorem C7_apply_undo_lifo_restores (R : Rules Pos) :
    (∀ (depth : ℕ) (st : GameSt Pos) (alpha beta : EInt) (isMaximizing : Bool),
        (minimaxSt R depth st alpha beta isMaximizing).2 = st)
      ∧ ∀ (st : GameSt Pos) (depth : ℕ), (findBestMoveSt R st depth).2 = st := by
  refine ⟨minimaxSt_snd R, fun st depth => ?_⟩
  unfold findBestMoveSt
  split
  · rfl
  · exact bestLoopSt_snd R _ _ st _ _

/-! ### The state-threading search computes the same scores as the pure one -/

lemma maxLoopSt_fst (step : GameSt Pos → EInt → EInt → EInt × GameSt Pos)
    (stepP : Pos → EInt → EInt → EInt) (R : Rules Pos)
    (hsnd : ∀ st alpha beta, (step st alpha beta).2 = st)
    (hfst : ∀ st alpha beta, (step st alpha beta).1 = stepP st.cur alpha beta) :
    ∀ (l : List Move) (st : GameSt Pos) (me alpha beta : EInt),
      (maxLoopSt step R l st me alpha beta).1
        = maxLoop (fun m a b => stepP (R.move st.cur m) a b) l me alpha beta := by
  intro l
  induction l with
  | nil => intro st me alpha beta; rfl
  | cons m rest ih =>
    intro st me alpha beta
    simp only [maxLoopSt, maxLoop, hsnd, hfst, undoSt_pushMove, pushMove]
    split
    · rfl
    · exact ih st _ _ _

lemma minLoopSt_fst (step : GameSt Pos → EInt → EInt → EInt × GameSt Pos)
    (stepP : Pos → EInt → EInt → EInt) (R : Rules Pos)
    (hsnd : ∀ st alpha beta, (step st alpha beta).2 = st)
    (hfst : ∀ st alpha beta, (step st alpha beta).1 = stepP st.cur alpha beta) :
    ∀ (l : List Move) (st : GameSt Pos) (me alpha beta : EInt),
      (minLoopSt step R l st me alpha beta).1
        = minLoop (fun m a b => stepP (R.move st.cur m) a b) l me alpha beta := by
  intro l
  induction l with
  | nil => intro st me alpha beta; rfl
  | cons m rest ih =>
    intro st me alpha beta
    simp only [minLoopSt, minLoop, hsnd, hfst, undoSt_pushMove, pushMove]
    split
    · rfl
    · exact ih st _ _ _

lemma minimaxSt_fst (R : Rules Pos) :
    ∀ (depth : ℕ) (st : GameSt Pos) (alpha beta : EInt) (mx : Bool),
      (minimaxSt R depth st alpha beta mx).1 = minimax R depth st.cur alpha beta mx := by
  intro depth
  induction depth with
  | zero => intro st alpha beta mx; rfl
  | succ d ih =>
    intro st alpha beta mx
    simp only [minimaxSt, minimax]
    split
    · rfl
    · split
      · exact maxLoopSt_fst _ (fun p a b => minimax R d p a b false) R
          (fun st1 a b => minimaxSt_snd R d st1 a b false)
          (fun st1 a b => ih st1 a b false) _ st _ _ _
      · exact minLoopSt_fst _ (fun p a b => minimax R d p a b true) R
          (fun st1 a b => minimaxSt_snd R d st1 a b true)
          (fun st1 a b => ih st1 a b true) _ st _ _ _

lemma bestLoopSt_fst (R : Rules Pos) (depth : ℕ) :
    ∀ (l : List Move) (st : GameSt Pos) (bm : Option Move) (be : EInt),
      (bestLoopSt R depth l st bm be).1
        = bestLoop (fun m => minimax R depth (R.move st.cur m) ⊥ ⊤ true) l bm be := by
  intro l
  induction l with
  | nil => intro st bm be; rfl
  | cons m rest ih =>
    intro st bm be
    have hs : (minimaxSt R depth (pushMove R st m) ⊥ ⊤ true).1
        = minimax R depth (R.move st.cur m) ⊥ ⊤ true := minimaxSt_fst R depth _ _ _ _
    simp only [bestLoopSt, bestLoop, minimaxSt_snd, undoSt_pushMove, hs]
    split
    · exact ih st _ _
    · exact ih st _ _

lemma findBestMoveSt_fst (R : Rules Pos) (st : GameSt Pos) (depth : ℕ) :
    (findBestMoveSt R st depth).1 = findBestMove R st.cur depth := by
  unfold findBestMoveSt findBestMove
  split
  · rfl
  · exact bestLoopSt_fst R _ _ st _ _

/-! ### Depth-bounded dependence of the search -/

lemma orderMoves_mem {m : Move} {l : List Move} : m ∈ orderMoves l ↔ m ∈ l :=
  (List.perm_insertionSort _ l).mem_iff

lemma orderMoves_length (l : List Move) : (orderMoves l).length = l.length :=
  (List.perm_insertionSort _ l).length_eq

lemma orderMoves_ne_nil {l : List Move} (h : l ≠ []) : orderMoves l ≠ [] := by
  intro hc
  apply h
  have hlen := orderMoves_length l
  rw [hc] at hlen
  exact List.length_eq_zero.mp hlen.symm

lemma maxLoop_congr (step1 step2 : Move → EInt → EInt → EInt) :
    ∀ (l : List Move),
      (∀ m ∈ l, ∀ alpha beta : EInt, step1 m alpha beta = step2 m alpha beta) →
      ∀ (me alpha beta : EInt),
        maxLoop step1 l me alpha beta = maxLoop step2 l me alpha beta := by
  intro l
  induction l with
  | nil => intro _ me alpha beta; rfl
  | cons m rest ih =>
    intro h me alpha beta
    simp only [maxLoop, h m (List.mem_cons_self m rest)]
    split
    · rfl
    · exact ih (fun m' hm' a b => h m' (List.mem_cons_of_mem m hm') a b) _ _ _

lemma minLoop_congr (step1 step2 : Move → EInt → EInt → EInt) :
    ∀ (l : List Move),
      (∀ m ∈ l, ∀ alpha beta : EInt, step1 m alpha beta = step2 m alpha beta) →
      ∀ (me alpha beta : EInt),
        minLoop step1 l me alpha beta = minLoop step2 l me alpha beta := by
  intro l
  induction l with
  | nil => intro _ me alpha beta; rfl
  | cons m rest ih =>
    intro h me alpha beta
    simp only [minLoop, h m (List.mem_cons_self m rest)]
    split
    · rfl
    · exact ih (fun m' hm' a b => h m' (List.mem_cons_of_mem m hm') a b) _ _ _

lemma bestLoop_congr (score1 score2 : Move → EInt) :
    ∀ (l : List Move), (∀ m ∈ l, score1 m = score2 m) →
      ∀ (bm : Option Move) (be : EInt),
        bestLoop score1 l bm be = bestLoop score2 l bm be := by
  intro l
  induction l with
  | nil => intro _ bm be; rfl
  | cons m rest ih =>
    intro h bm be
    simp only [bestLoop, h m (List.mem_cons_self m rest)]
    split
    · exact ih (fun m' hm' => h m' (List.mem_cons_of_mem m hm')) _ _
    · exact ih (fun m' hm' => h m' (List.mem_cons_of_mem m hm')) _ _

lemma minimax_agree (R1 R2 : Rules Pos) :
    ∀ (depth : ℕ) (pos : Pos) (alpha beta : EInt) (mx : Bool),
      (∀ q, Reach R1 depth pos q → Agree R1 R2 q) →
      minimax R1 depth pos alpha beta mx = minimax R2 depth pos alpha beta mx := by
  intro depth
  induction depth with
  | zero =>
    intro pos alpha beta mx h
    obtain ⟨_, _, he, _⟩ := h pos (Reach.refl 0 pos)
    simp only [minimax, he]
  | succ d ih =>
    intro pos alpha beta mx h
    obtain ⟨hm, hgo, he, hmv⟩ := h pos (Reach.refl (d + 1) pos)
    simp only [minimax, ← hgo, ← hm, he]
    split
    · rfl
    · next hnot =>
      have hgo' : R1.isGameOver pos = false := by simpa [Bool.not_eq_true] using hnot
      have hstep : ∀ m ∈ orderMoves (R1.moves pos), ∀ (a b : EInt) (flag : Bool),
          minimax R1 d (R1.move pos m) a b flag = minimax R2 d (R2.move pos m) a b flag := by
        intro m hm' a b flag
        have hmem : m ∈ R1.moves pos := orderMoves_mem.mp hm'
        rw [← hmv m hmem]
        exact ih (R1.move pos m) a b flag (fun q hq => h q (Reach.step m hgo' hmem hq))
      split
      · exact maxLoop_congr _ _ _ (fun m hm' a b => hstep m hm' a b false) _ _ _
      · exact minLoop_congr _ _ _ (fun m hm' a b => hstep m hm' a b true) _ _ _

/-- C9: the search is well-defined and depth-bounded — `findBestMove` at
depth `d` is a total function determined by the rules engine's behavior
on the root and the positions reachable within `d - 1` moves below a root
move (the recursion decreases `depth` by one per ply and stops at depth 0
or at game-over positions, so any two total rules engines agreeing there
give the same result). -/
theorem C9_search_total_and_depth_bounded (R1 R2 : Rules Pos) (pos : Pos) (depth : ℕ)
    (hdepth : 1 ≤ depth) (hpos : Agree R1 R2 pos)
    (hreach : ∀ m ∈ R1.moves pos, ∀ q,
      Reach R1 (depth - 1) (R1.move pos m) q → Agree R1 R2 q) :
    findBestMove R1 pos depth = findBestMove R2 pos depth := by
  obtain ⟨hm, _, _, hmv⟩ := hpos
  unfold findBestMove
  rw [← hm]
  split
  · rfl
  · refine bestLoop_congr _ _ (orderMoves (R1.moves pos)) ?_ none ⊤
    intro m hm'
    have hmem : m ∈ R1.moves pos := orderMoves_mem.mp hm'
    rw [← hmv m hmem]
    exact minimax_agree R1 R2 (depth - 1) (R1.move pos m) ⊥ ⊤ true (hreach m hmem)

lemma lineR_reach_le (n p q : ℕ) (h : Reach lineR n p q) : q ≤ p + n := by
  induction h with
  | refl n p => exact Nat.le_add_right p n
  | @step n' p' q' m hgo hm hr ih =>
    have hmv : lineR.move p' m = p' + 1 := rfl
    rw [hmv] at ih
    omega

lemma lineR_agree (q : ℕ) (hq : q ≤ 2) : Agree lineR lineR2 q := by
  refine ⟨rfl, rfl, ?_, fun m _ => rfl⟩
  show (q : ℤ) = if 2 < q then 999 else (q : ℤ)
  rw [if_neg (by omega)]

/-- C9 witness: `lineR` and `lineR2` differ in evaluation only beyond
depth-2 reach of position 0, and the depth-2 search results coincide. -/
theorem C9_search_total_and_depth_bounded_witness :
    (1 ≤ 2) ∧ lineR.eval 5 ≠ lineR2.eval 5
      ∧ findBestMove lineR 0 2 = findBestMove lineR2 0 2 := by
  refine ⟨by decide, by decide, ?_⟩
  refine C9_search_total_and_depth_bounded lineR lineR2 0 2 (by decide)
    (lineR_agree 0 (by omega)) ?_
  intro m _ q hq
  have hle := lineR_reach_le _ _ _ hq
  have hmv : lineR.move 0 m = 1 := rfl
  rw [hmv] at hle
  exact lineR_agree q (by omega)

/-! ### Finiteness of search scores and the best-move selection loop -/

lemma maxLoop_bounded (step : Move → EInt → EInt → EInt) :
    ∀ (l : List Move),
      (∀ m ∈ l, ∀ alpha beta : EInt,
        ⊥ < step m alpha beta ∧ step m alpha beta < ⊤) →
      ∀ (me alpha beta : EInt), ⊥ < me → me < ⊤ →
        ⊥ < maxLoop step l me alpha beta ∧ maxLoop step l me alpha beta < ⊤ := by
  intro l
  induction l with
  | nil => intro _ me alpha beta h1 h2; exact ⟨h1, h2⟩
  | cons m rest ih =>
    intro h me alpha beta h1 h2
    obtain ⟨hs1, hs2⟩ := h m (List.mem_cons_self m rest) alpha beta
    simp only [maxLoop]
    split
    · exact ⟨lt_of_lt_of_le h1 (le_max_left me _), max_lt h2 hs2⟩
    · exact ih (fun m' hm' a b => h m' (List.mem_cons_of_mem m hm') a b) _ _ _
        (lt_of_lt_of_le h1 (le_max_left me _)) (max_lt h2 hs2)

lemma minLoop_bounded (step : Move → EInt → EInt → EInt) :
    ∀ (l : List Move),
      (∀ m ∈ l, ∀ alpha beta : EInt,
        ⊥ < step m alpha beta ∧ step m alpha beta < ⊤) →
      ∀ (me alpha beta : EInt), ⊥ < me → me < ⊤ →
        ⊥ < minLoop step l me alpha beta ∧ minLoop step l me alpha beta < ⊤ := by
  intro l
  induction l with
  | nil => intro _ me alpha beta h1 h2; exact ⟨h1, h2⟩
  | cons m rest ih =>
    intro h me alpha beta h1 h2
    obtain ⟨hs1, hs2⟩ := h m (List.mem_cons_self m rest) alpha beta
    simp only [minLoop]
    split
    · exact ⟨lt_min h1 hs1, lt_of_le_of_lt (min_le_left me _) h2⟩
    · exact ih (fun m' hm' a b => h m' (List.mem_cons_of_mem m hm') a b) _ _ _
        (lt_min h1 hs1) (lt_of_le_of_lt (min_le_left me _) h2)

lemma minimax_bounded (R : Rules Pos) :
    ∀ (depth : ℕ) (pos : Pos) (alpha beta : EInt) (mx : Bool),
      (∀ q, Reach R depth pos q → R.moves q = [] → R.isGameOver q = true) →
      ⊥ < minimax R depth pos alpha beta mx ∧ minimax R depth pos alpha beta mx < ⊤ := by
  intro depth
  induction depth with
  | zero => intro pos alpha beta mx _; exact ⟨bot_lt_iE _, iE_lt_top _⟩
  | succ d ih =>
    intro pos alpha beta mx h
    by_cases hover : R.isGameOver pos
    · simp only [minimax, hover, if_true]
      exact ⟨bot_lt_iE _, iE_lt_top _⟩
    · have hgo : R.isGameOver pos = false := by simpa [Bool.not_eq_true] using hover
      have hmoves : R.moves pos ≠ [] := by
        intro hc
        have := h pos (Reach.refl _ _) hc
        rw [this] at hgo
        exact Bool.noConfusion hgo
      have hms : orderMoves (R.moves pos) ≠ [] := orderMoves_ne_nil hmoves
      obtain ⟨m0, rest, hcons⟩ : ∃ m0 rest, orderMoves (R.moves pos) = m0 :: rest := by
        cases hc : orderMoves (R.moves pos) with
        | nil => exact absurd hc hms
        | cons a l => exact ⟨a, l, rfl⟩
      have hstep : ∀ m ∈ m0 :: rest, ∀ (a b : EInt) (flag : Bool),
          ⊥ < minimax R d (R.move pos m) a b flag
            ∧ minimax R d (R.move pos m) a b flag < ⊤ := by
        intro m hmem' a b flag
        have hmem : m ∈ R.moves pos := by
          apply orderMoves_mem.mp
          rw [hcons]
          exact hmem'
        exact ih (R.move pos m) a b flag (fun q hq => h q (Reach.step m hgo hmem hq))
      obtain ⟨hs1, hs2⟩ := hstep m0 (List.mem_cons_self _ _) alpha beta
        (if mx then false else true)
      cases mx with
      | true =>
        simp only [minimax, hgo, Bool.false_eq_true, if_false, if_true, hcons]
        simp only [maxLoop]
        simp only [if_true, if_false, Bool.false_eq_true] at hs1 hs2
        split
        · exact ⟨lt_of_lt_of_le hs1 (le_max_right ⊥ _), max_lt bot_lt_top hs2⟩
        · exact maxLoop_bounded _ rest
            (fun m' hm' a b => hstep m' (List.mem_cons_of_mem _ hm') a b false) _ _ _
            (lt_of_lt_of_le hs1 (le_max_right ⊥ _)) (max_lt bot_lt_top hs2)
      | false =>
        simp only [minimax, hgo, Bool.false_eq_true, if_false, hcons]
        simp only [minLoop]
        simp only [if_true, if_false, Bool.false_eq_true] at hs1 hs2
        split
        · exact ⟨lt_min bot_lt_top hs1, lt_of_le_of_lt (min_le_right ⊤ _) hs2⟩
        · exact minLoop_bounded _ rest
            (fun m' hm' a b => hstep m' (List.mem_cons_of_mem _ hm') a b true) _ _ _
            (lt_min bot_lt_top hs1) (lt_of_le_of_lt (min_le_right ⊤ _) hs2)

lemma bestLoop_cases (score : Move → EInt) :
    ∀ (l : List Move) (bm : Option Move) (be : EInt),
      ((∀ m ∈ l, be ≤ score m) ∧ bestLoop score l bm be = bm)
        ∨ (∃ i : ℕ, ∃ hi : i < l.length,
            bestLoop score l bm be = some (l.get ⟨i, hi⟩)
              ∧ score (l.get ⟨i, hi⟩) < be
              ∧ (∀ (j : ℕ) (hj : j < l.length), j < i →
                  score (l.get ⟨i, hi⟩) < score (l.get ⟨j, hj⟩))
              ∧ (∀ (j : ℕ) (hj : j < l.length),
                  score (l.get ⟨i, hi⟩) ≤ score (l.get ⟨j, hj⟩))) := by
  intro l
  induction l with
  | nil =>
    intro bm be
    left
    exact ⟨fun m hm => absurd hm (List.not_mem_nil m), rfl⟩
  | cons m rest ih =>
    intro bm be
    simp only [bestLoop]
    by_cases hlt : score m < be
    · rw [if_pos hlt]
      rcases ih (some m) (score m) with ⟨hall, heq⟩ | ⟨i, hi, heq, hib, hstrict, hmin⟩
      · right
        refine ⟨0, Nat.succ_pos _, heq, hlt, ?_, ?_⟩
        · intro j hj hj0
          omega
        · intro j hj
          cases j with
          | zero => exact le_refl _
          | succ j' => exact hall _ (List.get_mem rest j' (Nat.lt_of_succ_lt_succ hj))
      · right
        refine ⟨i + 1, Nat.succ_lt_succ hi, heq, lt_trans hib hlt, ?_, ?_⟩
        · intro j hj hji
          cases j with
          | zero => exact hib
          | succ j' => exact hstrict j' (Nat.lt_of_succ_lt_succ hj) (by omega)
        · intro j hj
          cases j with
          | zero => exact le_of_lt hib
          | succ j' => exact hmin j' (Nat.lt_of_succ_lt_succ hj)
    · rw [if_neg hlt]
      rcases ih bm be with ⟨hall, heq⟩ | ⟨i, hi, heq, hib, hstrict, hmin⟩
      · left
        refine ⟨?_, heq⟩
        intro m' hm'
        rcases List.mem_cons.mp hm' with rfl | hm'
        · exact not_lt.mp hlt
        · exact hall m' hm'
      · right
        refine ⟨i + 1, Nat.succ_lt_succ hi, heq, hib, ?_, ?_⟩
        · intro j hj hji
          cases j with
          | zero => exact lt_of_lt_of_le hib (not_lt.mp hlt)
          | succ j' => exact hstrict j' (Nat.lt_of_succ_lt_succ hj) (by omega)
        · intro j hj
          cases j with
          | zero => exact le_of_lt (lt_of_lt_of_le hib (not_lt.mp hlt))
          | succ j' => exact hmin j' (Nat.lt_of_succ_lt_succ hj)

/-- C3: with at least one legal root move, depth ≥ 1, and a rules engine
on which every reachable move-less position is flagged game over (so
every root score is finite), `findBestMove` returns exactly the first
move, in ordered evaluation sequence, attaining the minimal recursive
minimax score: its score is a lower bound for all root scores and is
strictly below the score of every earlier move (strict improvement
keeps the first minimum on ties). -/
theorem C3_findBestMove_first_argmin (R : Rules Pos) (pos : Pos) (depth : ℕ)
    (hdepth : 1 ≤ depth) (hmoves : R.moves pos ≠ [])
    (hclosed : ∀ m ∈ R.moves pos, ∀ q, Reach R (depth - 1) (R.move pos m) q →
      R.moves q = [] → R.isGameOver q = true) :
    ∃ i : ℕ, ∃ hi : i < (orderMoves (R.moves pos)).length,
      findBestMove R pos depth = some ((orderMoves (R.moves pos)).get ⟨i, hi⟩)
        ∧ (∀ (j : ℕ) (hj : j < (orderMoves (R.moves pos)).length),
            minimax R (depth - 1)
                (R.move pos ((orderMoves (R.moves pos)).get ⟨i, hi⟩)) ⊥ ⊤ true
              ≤ minimax R (depth - 1)
                (R.move pos ((orderMoves (R.moves pos)).get ⟨j, hj⟩)) ⊥ ⊤ true)
        ∧ (∀ (j : ℕ) (hj : j < (orderMoves (R.moves pos)).length), j < i →
            minimax R (depth - 1)
                (R.move pos ((orderMoves (R.moves pos)).get ⟨i, hi⟩)) ⊥ ⊤ true
              < minimax R (depth - 1)
                (R.move pos ((orderMoves (R.moves pos)).get ⟨j, hj⟩)) ⊥ ⊤ true) := by
  have hms : orderMoves (R.moves pos) ≠ [] := orderMoves_ne_nil hmoves
  have hlen : ¬(orderMoves (R.moves pos)).length = 0 :=
    fun hc => hms (List.length_eq_zero.mp hc)
  rcases bestLoop_cases (fun m => minimax R (depth - 1) (R.move pos m) ⊥ ⊤ true)
      (orderMoves (R.moves pos)) none ⊤ with ⟨hall, _⟩ | ⟨i, hi, heq, _, hstrict, hmin⟩
  · exfalso
    obtain ⟨m0, rest, hcons⟩ : ∃ m0 rest, orderMoves (R.moves pos) = m0 :: rest := by
      cases hc : orderMoves (R.moves pos) with
      | nil => exact absurd hc hms
      | cons a l => exact ⟨a, l, rfl⟩
    have hm0' : m0 ∈ orderMoves (R.moves pos) := by
      rw [hcons]
      exact List.mem_cons_self m0 rest
    have hm0 : m0 ∈ R.moves pos := orderMoves_mem.mp hm0'
    have hb := minimax_bounded R (depth - 1) (R.move pos m0) ⊥ ⊤ true
      (fun q hq => hclosed m0 hm0 q hq)
    exact absurd (lt_of_le_of_lt (hall m0 hm0') hb.2) (lt_irrefl ⊤)
  · refine ⟨i, hi, ?_, hmin, hstrict⟩
    unfold findBestMove
    rw [if_neg hlen]
    exact heq

/-- C10: with a non-empty legal-move list, depth ≥ 1, and the reachable
move-less-implies-game-over proviso, `findBestMove` returns a non-null
move belonging to the rules engine's legal-move list for the position. -/
theorem C10_findBestMove_legal (R : Rules Pos) (pos : Pos) (depth : ℕ)
    (hdepth : 1 ≤ depth) (hmoves : R.moves pos ≠ [])
    (hclosed : ∀ m ∈ R.moves pos, ∀ q, Reach R (depth - 1) (R.move pos m) q →
      R.moves q = [] → R.isGameOver q = true) :
    ∃ m : Move, findBestMove R pos depth = some m ∧ m ∈ R.moves pos := by
  have hms : orderMoves (R.moves pos) ≠ [] := orderMoves_ne_nil hmoves
  have hlen : ¬(orderMoves (R.moves pos)).length = 0 :=
    fun hc => hms (List.length_eq_zero.mp hc)
  rcases bestLoop_cases (fun m => minimax R (depth - 1) (R.move pos m) ⊥ ⊤ true)
      (orderMoves (R.moves pos)) none ⊤ with ⟨hall, _⟩ | ⟨i, hi, heq, _, _, _⟩
  · exfalso
    obtain ⟨m0, rest, hcons⟩ : ∃ m0 rest, orderMoves (R.moves pos) = m0 :: rest := by
      cases hc : orderMoves (R.moves pos) with
      | nil => exact absurd hc hms
      | cons a l => exact ⟨a, l, rfl⟩
    have hm0' : m0 ∈ orderMoves (R.moves pos) := by
      rw [hcons]
      exact List.mem_cons_self m0 rest
    have hm0 : m0 ∈ R.moves pos := orderMoves_mem.mp hm0'
    have hb := minimax_bounded R (depth - 1) (R.move pos m0) ⊥ ⊤ true
      (fun q hq => hclosed m0 hm0 q hq)
    exact absurd (lt_of_le_of_lt (hall m0 hm0') hb.2) (lt_irrefl ⊤)
  · refine ⟨(orderMoves (R.moves pos)).get ⟨i, hi⟩, ?_, ?_⟩
    · unfold findBestMove
      rw [if_neg hlen]
      exact heq
    · exact orderMoves_mem.mp (List.get_mem _ i hi)

/-- C6: on a position with an empty legal-move list, `findBestMove`
returns the absence-of-move value `none` for every depth, and it does so
without invoking the evaluator: the result is the same for every
evaluation function the engine could carry. -/
theorem C6_no_moves_returns_none (R : Rules Pos) (pos : Pos) (depth : ℕ)
    (hmoves : R.moves pos = []) :
    ∀ ev : Pos → ℤ, findBestMove { R with eval := ev } pos depth = none := by
  intro ev
  have h1 : ({ R with eval := ev } : Rules Pos).moves pos = [] := hmoves
  unfold findBestMove
  rw [h1]
  rfl

lemma selR_closed (q : ℕ) (h : selR.moves q = []) : selR.isGameOver q = true := by
  by_cases h2 : q < 2
  · exfalso
    simp [selR, h2] at h
  · show decide (2 ≤ q) = true
    simp
    omega

/-- C3 witness: on `selR` at depth 2 the root scores are 3 (after `mvA`)
and 2 (after `mvB`), so the search returns the unique minimal-scoring
move `mvB`. -/
theorem C3_findBestMove_first_argmin_witness :
    (1 ≤ 2) ∧ selR.moves 0 ≠ []
      ∧ (∃ i : ℕ, ∃ hi : i < (orderMoves (selR.moves 0)).length,
          findBestMove selR 0 2 = some ((orderMoves (selR.moves 0)).get ⟨i, hi⟩))
      ∧ findBestMove selR 0 2 = some mvB := by
  refine ⟨by decide, by decide, ?_, by decide⟩
  obtain ⟨i, hi, heq, _, _⟩ :=
    C3_findBestMove_first_argmin selR 0 2 (by decide) (by decide)
      (fun m _ q _ hq2 => selR_closed q hq2)
  exact ⟨i, hi, heq⟩

/-- C10 witness: on `selR` at depth 1 the search returns a move from the
root legal-move list. -/
theorem C10_findBestMove_legal_witness :
    (1 ≤ 1) ∧ selR.moves 0 ≠ []
      ∧ (∃ m : Move, findBestMove selR 0 1 = some m ∧ m ∈ selR.moves 0)
      ∧ findBestMove selR 0 1 = some mvA := by
  refine ⟨by decide, by decide, ?_, by decide⟩
  exact C10_findBestMove_legal selR 0 1 (by decide) (by decide)
    (fun m _ q _ hq2 => selR_closed q hq2)

/-- C6 witness: an engine with no legal moves anywhere yields `none` at
depth 3 even with a different evaluation function substituted. -/
theorem C6_no_moves_returns_none_witness :
    emptyR.moves 0 = []
      ∧ findBestMove { emptyR with eval := fun _ => 42 } 0 3 = none :=
  ⟨rfl, C6_no_moves_returns_none emptyR 0 3 rfl (fun _ => 42)⟩

set_option maxRecDepth 10000 in
/-- C5 counterexample: in the mate-in-1 position `mateBoard` (Black to
move, `Qe1#` available), the depth-1 search does not return a mating
move: it returns the queen capture `Qxa8`, whose resulting position is
not even game over.  The evaluator scores the mated position by material
and tables (the mated king still counts its 20000), so winning a queen
outscores delivering mate. -/
theorem C5_counterexample :
    mateInOne ∈ c5R.moves none
      ∧ c5R.isGameOver (c5R.move none mateInOne) = true
      ∧ findBestMove c5R none 1 = some qxa8
      ∧ qxa8 ≠ mateInOne
      ∧ c5R.isGameOver (c5R.move none qxa8) = false := by
  refine ⟨by decide, by decide, by decide, by decide, by decide⟩

set_option maxRecDepth 10000 in
/-- C5 amended: in a position with a checkmate-in-1, `findBestMove` need
not return a mating move: it returns the first root move minimizing the
recursive evaluation, and since `evaluate` does not special-case
checkmate, a material win can outscore mate.  Concretely, the chosen
`Qxa8` improves the score by the queen scale (865 centipawns), while the
mate child's score shows no swing at all (0) — in particular no
king-value-scale (≈20000) swing. -/
theorem C5_amended_material_beats_mate :
    mateInOne ∈ c5R.moves none
      ∧ c5R.isGameOver (c5R.move none mateInOne) = true
      ∧ findBestMove c5R none 1 = some qxa8
      ∧ rootScore c5R none 1 = iE (evaluate (applyBoardMove mateBoard qxa8))
      ∧ evaluate mateBoard - evaluate (applyBoardMove mateBoard qxa8) = 865
      ∧ evaluate mateBoard - evaluate (applyBoardMove mateBoard mateInOne) = 0 := by
  refine ⟨by decide, by decide, by decide, by decide, by decide, by decide⟩

end ChessAI
